import Mathlib

/-!
Verification of the diff-review pipeline
(`extract_mr_context.py`, `merge_diffs.py`, `review_chunk.py`,
`summarize_reviews.py`).

Texts are modelled as `List Char` (Python `str`; `len`, slicing and
regular-expression scanning all operate on characters).  The filesystem is
modelled as an association list from path strings to file contents; a path
is present exactly when the corresponding file exists on disk.  Each
pipeline stage's `main` is modelled as a pure function from its inputs
(parsed arguments, filesystem, completion endpoint) to an outcome that
records whether the stage returned early, raised, or wrote its output
artifact.  The completion endpoint is a parameter returning `none` on a
non-2xx status or transport error (in which case `raise_for_status` /
the request raises) and `some text` on success.  Prompt assembly by
`str.format` on a fixed template is modelled by a record of the
substituted fields, which determines the assembled prompt text.
-/

/-- The literal `"diff --git a/"`, the fixed prefix of the diff-header
regular expression `diff --git a/(.*?) b/` used by all scripts. -/
def headerPfx : List Char := "diff --git a/".data

/-- The literal `" b/"`, the separator the lazy capture `(.*?)` stops at
(written as an explicit character list). -/
def bSep : List Char := [' ', 'b', '/']

/-- A well-formed diff header line `diff --git a/P b/P` for a path `P`. -/
def headerStr (p : List Char) : List Char := headerPfx ++ p ++ bSep ++ p

/-- First index at which `pat` occurs as a contiguous block of `s`
(leftmost occurrence), `none` if there is no occurrence. -/
def findSub (pat : List Char) : List Char → Option Nat
  | [] => if pat.isPrefixOf ([] : List Char) then some 0 else none
  | c :: rest =>
    if pat.isPrefixOf (c :: rest) then some 0
    else (findSub pat rest).map (· + 1)

/-- Split a character list on every occurrence of `sep`, like Python
`str.split(sep)` for a one-character separator: always returns at least
one (possibly empty) piece. -/
def splitOnChar (sep : Char) : List Char → List (List Char)
  | [] => [[]]
  | c :: rest =>
    if c = sep then [] :: splitOnChar sep rest
    else
      match splitOnChar sep rest with
      | [] => [[c]]
      | l :: ls => (c :: l) :: ls

/-- Join pieces with a newline between consecutive pieces, like Python
`"\n".join(pieces)`. -/
def joinN : List (List Char) → List Char
  | [] => []
  | [x] => x
  | x :: y :: rest => x ++ '\n' :: joinN (y :: rest)

/-- Split at the first `'/'`, like Python `s.split('/', 1)`:
`some (before, after)` when a `'/'` is present, `none` when the string has
no `'/'` at all (in which case the Python list has a single element and
`parts[1]` raises `IndexError`). -/
def split1 : List Char → Option (List Char × List Char)
  | [] => none
  | c :: rest =>
    if c = '/' then some ([], rest)
    else
      match split1 rest with
      | some (a, b) => some (c :: a, b)
      | none => none

/-- `pathlib.Path(p).name`: the final `'/'`-separated segment of a path
(for paths without a trailing slash, the only form the scripts use). -/
def pathName (p : List Char) : List Char := (splitOnChar '/' p).getLastD []

/-- `pathlib.Path(a) / b` for a relative second component. -/
def pathJoin (a b : List Char) : List Char := a ++ '/' :: b

/-- The filesystem: an association list from path to file content.
A path is present exactly when the file exists. -/
abbrev FS : Type := List (List Char × List Char)

deriving instance DecidableEq for Except

/-- Look up a path: `some content` when the file exists (`Path.exists()`
true and `read_text` returns `content`), else `none`. -/
def fsGet (fs : FS) (p : List Char) : Option (List Char) :=
  match fs with
  | [] => none
  | e :: rest => if e.1 = p then some e.2 else fsGet rest p

/-! ## `extract_mr_context.py` -/

/-- One line of the `re.finditer(r'^diff --git a/(.*?) b/', diff_text,
re.MULTILINE)` scan in `extract_changed_files`.  With `re.MULTILINE` the
anchor `^` matches only at line starts and `.` never matches a newline, so
every match lies within a single line and each line holds at most one
match: a line matches when it starts with `diff --git a/` and contains
`" b/"` later on, and the lazy capture is everything up to the first
`" b/"`. -/
def matchHeaderLine (line : List Char) : Option (List Char) :=
  if headerPfx.isPrefixOf line then
    match findSub bSep (line.drop 13) with
    | some i => some ((line.drop 13).take i)
    | none => none
  else none

/-- `extract_changed_files(diff_text)` of `extract_mr_context.py`:
the ordered list of captures of `^diff --git a/(.*?) b/` (MULTILINE). -/
def extract_changed_files (diff_text : List Char) : List (List Char) :=
  (splitOnChar '\n' diff_text).filterMap matchHeaderLine

/-- The `MAX_DIFF_CHARS = 60_000` truncation of `extract_mr_context.main`:
`diff_text = diff_text[:MAX_DIFF_CHARS]` when `len(diff_text) >
MAX_DIFF_CHARS`. -/
def truncate_diff (d : List Char) : List Char :=
  if 60000 < d.length then d.take 60000 else d

/-- The fields substituted into `EXTRACT_CONTEXT_PROMPT.format(diff=...,
timestamp=..., file_count=...)`; the fixed template together with these
fields determines the assembled prompt string. -/
structure ExtractPrompt where
  diff : List Char
  timestamp : List Char
  fileCount : Nat
deriving DecidableEq

/-- Prompt assembly of `extract_mr_context.main`: the file count is taken
from the full diff text as read from disk, the diff is truncated
afterwards. -/
def extract_prompt (d ts : List Char) : ExtractPrompt :=
  { diff := truncate_diff d
    timestamp := ts
    fileCount := (extract_changed_files d).length }

/-- Outcome of one pipeline-stage process run. -/
inductive StageOutcome
  | returnedEarly
  | raised
  | wrote (out : List Char)
deriving DecidableEq

/-- `extract_mr_context.main`: read the diff file (log and return early if
missing), build the prompt, call the endpoint (raising on failure), and
only then write the context artifact. -/
def extract_stage (fs : FS) (diffPath ts : List Char)
    (llm : ExtractPrompt → Option (List Char)) : StageOutcome :=
  match fsGet fs diffPath with
  | none => .returnedEarly
  | some d =>
    match llm (extract_prompt d ts) with
    | none => .raised
    | some ctx => .wrote ctx

/-! ## `merge_diffs.py` -/

/-- Lazy capture walk of `re.sub(r'diff --git a/(.*?) b/\1', ...)` at one
start position, after the literal `diff --git a/` has matched: `capRev`
holds the characters consumed by `(.*?)` so far (reversed), `s` the rest
of the input.  The engine first tries to finish the match (`" b/"`
followed by the backreference), and otherwise extends the capture by one
character, which must not be a newline. -/
def capWalk (capRev : List Char) : List Char → Option (List Char)
  | [] => if (bSep ++ capRev.reverse).isPrefixOf [] then some capRev.reverse
          else none
  | c :: rest =>
    if (bSep ++ capRev.reverse).isPrefixOf (c :: rest) then some capRev.reverse
    else if c = '\n' then none
    else capWalk (c :: capRev) rest

/-- Attempt of `diff --git a/(.*?) b/\1` at the start of `s`: the capture
on success. -/
def headerMatch (s : List Char) : Option (List Char) :=
  if headerPfx.isPrefixOf s then capWalk [] (s.drop 13) else none

/-- Replacement produced by `replace_path` in `add_project_prefix`:
`diff --git a/{proj}/{path} b/{proj}/{path}`. -/
def headerRepl (proj X : List Char) : List Char :=
  headerPfx ++ proj ++ '/' :: X ++ bSep ++ proj ++ '/' :: X

/-- The scan of `re.sub(r'diff --git a/(.*?) b/\1', replace_path, text)`:
leftmost-first non-overlapping matches, one character forward on failure,
scanning resumes after each match (a match consumes
`16 + 2 * |capture|` characters of the input, so `s.length` steps of fuel
always suffice; the fuel-exhausted case is unreachable). -/
def subHeadersF (proj : List Char) : Nat → List Char → List Char
  | 0, s => s
  | fuel + 1, s =>
    match headerMatch s with
    | some X =>
      headerRepl proj X ++ subHeadersF proj fuel (s.drop (16 + 2 * X.length))
    | none =>
      match s with
      | [] => []
      | c :: rest => c :: subHeadersF proj fuel rest

/-- The full header-rewriting pass of `add_project_prefix`. -/
def subHeaders (proj s : List Char) : List Char := subHeadersF proj s.length s

/-- The literal `"--- a/"`. -/
def mmMark : List Char := "--- a/".data

/-- The literal `"+++ b/"`. -/
def ppMark : List Char := "+++ b/".data

/-- Per-line action of `re.sub(r'^--- a/(.+)$', rf'--- a/{name}/\1', ...,
flags=re.MULTILINE)`: `^`/`$` with MULTILINE delimit one line and the
greedy `(.+)` (at least one character, no newline) spans the whole rest of
the line, so a line is rewritten exactly when it starts with `--- a/` and
has at least one further character. -/
def mmRewrite (proj line : List Char) : List Char :=
  if mmMark.isPrefixOf line ∧ 6 < line.length then
    mmMark ++ proj ++ '/' :: line.drop 6
  else line

/-- Per-line action of `re.sub(r'^\+\+\+ b/(.+)$', ...)`, analogous. -/
def ppRewrite (proj line : List Char) : List Char :=
  if ppMark.isPrefixOf line ∧ 6 < line.length then
    ppMark ++ proj ++ '/' :: line.drop 6
  else line

/-- Apply a per-line rewrite to every `'\n'`-separated line of a text
(the effect of a MULTILINE whole-line `re.sub`). -/
def lineMap (f : List Char → List Char) (t : List Char) : List Char :=
  joinN ((splitOnChar '\n' t).map f)

/-- `add_project_prefix(diff_text, project_name)` of `merge_diffs.py`:
rewrite `diff --git a/X b/X` headers (backreference pattern, no anchor),
then the `--- a/` lines, then the `+++ b/` lines. -/
def add_project_pfx (proj t : List Char) : List Char :=
  lineMap (ppRewrite proj) (lineMap (mmRewrite proj) (subHeaders proj t))

/-- The separator appended before each project's diff:
`f"\n### PROJECT: {project_name} ###\n"`. -/
def sepLine (name : List Char) : List Char :=
  '\n' :: "### PROJECT: ".data ++ name ++ " ###".data ++ ['\n']

/-- Loop body of `merge_diffs`: for each `(diff_file, project_name)` pair
of `zip(diff_files, project_names)`, raise `FileNotFoundError` if the diff
file is missing, else append the separator and the prefixed diff. -/
def merge_parts (fs : FS) : List (List Char × List Char) →
    Except Unit (List (List Char))
  | [] => .ok []
  | fn :: rest =>
    match fsGet fs fn.1 with
    | none => .error ()
    | some t =>
      match merge_parts fs rest with
      | .error e => .error e
      | .ok ps => .ok (sepLine fn.2 :: add_project_pfx fn.2 t :: ps)

/-- `merge_diffs(diff_files, project_names)`: `"\n".join(merged)` on
success, an exception (`FileNotFoundError`) when some diff file is
missing. -/
def merge_diffs (fs : FS) (files names : List (List Char)) :
    Except Unit (List Char) :=
  match merge_parts fs (files.zip names) with
  | .error e => .error e
  | .ok parts => .ok (joinN parts)

/-- Outcome of `merge_diffs.main` (run as `exit(main())`): a process exit
code with the optionally written output, or an uncaught exception. -/
inductive MergeOutcome
  | exitCode (n : Nat) (written : Option (List Char))
  | raised
deriving DecidableEq

/-- `merge_diffs.main`: mismatched list lengths are detected first and
reported as exit code 1 with no output; a missing diff file makes
`merge_diffs` raise, the exception is logged and re-raised; otherwise the
merged text is written and the process exits 0. -/
def merge_main (fs : FS) (diffs names : List (List Char)) : MergeOutcome :=
  if diffs.length ≠ names.length then .exitCode 1 none
  else
    match merge_diffs fs diffs names with
    | .error _ => .raised
    | .ok merged => .exitCode 0 (some merged)

/-! ## `review_chunk.py` -/

/-- The sentinel `f"<FILE NOT FOUND: {file_path}>"`. -/
def notFoundMarker (fp : List Char) : List Char :=
  "<FILE NOT FOUND: ".data ++ fp ++ [ '>' ]

/-- Multi-project loop of `load_original`: try each configured root in
order; a root is used when its `Path(...).name` equals the project prefix
and the file exists beneath it. -/
def searchMulti (fs : FS) (pre rest : List Char) :
    List (List Char) → Option (List Char)
  | [] => none
  | pp :: roots =>
    if pathName pp = pre then
      match fsGet fs (pathJoin pp rest) with
      | some c => some c
      | none => searchMulti fs pre rest roots
    else searchMulti fs pre rest roots

/-- Single-project loop of `load_original`: try each configured root in
order with the remainder after the first `'/'`. -/
def searchSingle (fs : FS) (rest : List Char) :
    List (List Char) → Option (List Char)
  | [] => none
  | pp :: roots =>
    match fsGet fs (pathJoin pp rest) with
    | some c => some c
    | none => searchSingle fs rest roots

/-- `load_original(project_roots, file_path)` of `review_chunk.py`.
`Except.error ()` models the `IndexError` raised by `parts[1]` in the
single-project branch when `file_path` contains no `'/'` (the split
produced a single part; the roots list of `split(':')` is never empty, so
the loop body always runs). -/
def load_original (fs : FS) (project_roots file_path : List Char) :
    Except Unit (List Char) :=
  let project_paths := splitOnChar ':' project_roots
  match split1 file_path with
  | some (pre, rest) =>
    if 1 < project_paths.length then
      match searchMulti fs pre rest project_paths with
      | some c => .ok c
      | none => .ok (notFoundMarker file_path)
    else
      match searchSingle fs rest project_paths with
      | some c => .ok c
      | none => .ok (notFoundMarker file_path)
  | none => .error ()

/-- The truncation marker inserted by `review_chunk.main`. -/
def truncMark : List Char := "\n\n[... middle section truncated ...]\n\n".data

/-- The `MAX_ORIGINAL_SIZE = 50000` smart truncation of
`review_chunk.main`: `original[:5000] + marker + original[-45000:]` when
`len(original) > 50000`. -/
def truncate_original (s : List Char) : List Char :=
  if 50000 < s.length then
    s.take 5000 ++ truncMark ++ s.drop (s.length - 45000)
  else s

/-- The `MAX_CHARS = 250_000` truncation of `summarize_reviews.main`:
`all_reviews = all_reviews[-MAX_CHARS:]` when `len(all_reviews) >
MAX_CHARS` (the last 250000 characters). -/
def truncate_reviews (r : List Char) : List Char :=
  if 250000 < r.length then r.drop (r.length - 250000) else r

example :
    extract_changed_files "diff --git a/X.txt b/X.txt\n+x\ndiff --git a/Y.txt b/Y.txt".data
      = ["X.txt".data, "Y.txt".data] := by decide

example : extract_changed_files "no headers here".data = [] := by decide

example :
    add_project_pfx "p".data "diff --git a/x b/x".data
      = "diff --git a/p/x b/p/x".data := by decide

example :
    add_project_pfx "p".data "diff --git a/p/x b/p/x".data
      = "diff --git a/p/p/x b/p/p/x".data := by decide

example :
    add_project_pfx "p".data "--- a/x.txt\n+++ b/x.txt".data
      = "--- a/p/x.txt\n+++ b/p/x.txt".data := by decide

example :
    load_original [(( "/p1/A.java".data : List Char), "C1".data)]
      "/p1".data "src/A.java".data = .ok "C1".data := by decide

example :
    load_original [] "/p1:/p2".data "Api.java".data = .error () := by decide

/-! ## Basic facts about `isPrefixOf`, `findSub`, `splitOnChar`, `split1` -/

theorem isPre_append (l t : List Char) : l.isPrefixOf (l ++ t) = true := by
  induction l with
  | nil => simp [List.isPrefixOf]
  | cons a l ih => simp [List.isPrefixOf, ih]

theorem isPre_refl (l : List Char) : l.isPrefixOf l = true := by
  have h := isPre_append l []
  rwa [List.append_nil] at h

theorem isPre_weaken {a b s : List Char} (h : (a ++ b).isPrefixOf s = true) :
    a.isPrefixOf s = true := by
  induction a generalizing s with
  | nil => simp [List.isPrefixOf]
  | cons x xs ih =>
    cases s with
    | nil => simp [List.isPrefixOf] at h
    | cons y ys =>
      simp only [List.cons_append, List.isPrefixOf, Bool.and_eq_true] at h ⊢
      exact ⟨h.1, ih h.2⟩

theorem isPre_long {pat A B : List Char} (h : pat.length ≤ A.length) :
    pat.isPrefixOf (A ++ B) = pat.isPrefixOf A := by
  induction pat generalizing A with
  | nil => simp [List.isPrefixOf]
  | cons x xs ih =>
    cases A with
    | nil => simp at h
    | cons a A =>
      simp only [List.cons_append, List.isPrefixOf, List.append_eq]
      rw [ih (by simpa using h)]

theorem isPre_app_congr (l a b : List Char) :
    (l ++ a).isPrefixOf (l ++ b) = a.isPrefixOf b := by
  induction l with
  | nil => rfl
  | cons x xs ih => simp [List.isPrefixOf, ih]

theorem findSub_eq_some {pat s : List Char} {m : Nat}
    (hm : pat.isPrefixOf (s.drop m) = true)
    (hlt : ∀ i, i < m → pat.isPrefixOf (s.drop i) = false) :
    findSub pat s = some m := by
  induction m generalizing s with
  | zero =>
    rw [List.drop_zero] at hm
    cases s with
    | nil => simp [findSub, hm]
    | cons c rest => simp [findSub, hm]
  | succ m ih =>
    have h0 : pat.isPrefixOf (s.drop 0) = false := hlt 0 (Nat.succ_pos m)
    rw [List.drop_zero] at h0
    cases s with
    | nil =>
      rw [List.drop_nil] at hm
      rw [hm] at h0
      cases h0
    | cons c rest =>
      rw [List.drop_succ_cons] at hm
      have hrec := ih hm (fun i hi => by
        have := hlt (i + 1) (by omega)
        rwa [List.drop_succ_cons] at this)
      simp [findSub, h0, hrec]

theorem findSub_eq_none {pat s : List Char} :
    findSub pat s = none ↔ ∀ i, pat.isPrefixOf (s.drop i) = false := by
  induction s with
  | nil =>
    constructor
    · intro h i
      rw [List.drop_nil]
      cases hp : pat.isPrefixOf ([] : List Char)
      · rfl
      · simp [findSub, hp] at h
    · intro h
      have h0 := h 0
      rw [List.drop_nil] at h0
      simp [findSub, h0]
  | cons c rest ih =>
    cases hp : pat.isPrefixOf (c :: rest) with
    | true =>
      constructor
      · intro h
        simp [findSub, hp] at h
      · intro h
        have h0 := h 0
        rw [List.drop_zero, hp] at h0
        cases h0
    | false =>
      simp only [findSub, hp, Bool.false_eq_true, if_false]
      rw [Option.map_eq_none', ih]
      constructor
      · intro h i
        cases i with
        | zero => rw [List.drop_zero]; exact hp
        | succ n => rw [List.drop_succ_cons]; exact h n
      · intro h i
        have := h (i + 1)
        rwa [List.drop_succ_cons] at this

theorem noEarlySep {P Q : List Char} (hsf : findSub bSep P = none) :
    ∀ k, k < P.length →
      bSep.isPrefixOf ((P ++ (bSep ++ Q)).drop k) = false := by
  have hk := findSub_eq_none.mp hsf
  intro k hklt
  have hdrop : (P ++ (bSep ++ Q)).drop k = P.drop k ++ (bSep ++ Q) := by
    rw [List.drop_append_eq_append_drop, Nat.sub_eq_zero_of_le (le_of_lt hklt),
      List.drop_zero]
  rw [hdrop]
  have hlen : 0 < (P.drop k).length := by
    rw [List.length_drop]; omega
  rcases hR : P.drop k with _ | ⟨a, R1⟩
  · rw [hR] at hlen; simp at hlen
  · rcases R1 with _ | ⟨b, R2⟩
    · by_contra hcon
      rw [Bool.not_eq_false] at hcon
      simp only [bSep, List.cons_append, List.nil_append, List.isPrefixOf,
        Bool.and_eq_true, beq_iff_eq] at hcon
      exact absurd hcon.2.1 (by decide)
    · rcases R2 with _ | ⟨c, R3⟩
      · by_contra hcon
        rw [Bool.not_eq_false] at hcon
        simp only [bSep, List.cons_append, List.nil_append, List.isPrefixOf,
          Bool.and_eq_true, beq_iff_eq] at hcon
        exact absurd hcon.2.2.1 (by decide)
      · rw [isPre_long (by simp [bSep])]
        rw [← hR]
        exact hk k

theorem split_no {c : Char} {s : List Char} (h : c ∉ s) :
    splitOnChar c s = [s] := by
  induction s with
  | nil => rfl
  | cons a rest ih =>
    have hne : ¬ a = c := fun he => h (he ▸ List.mem_cons_self a rest)
    have hid := ih (fun hm => h (List.mem_cons_of_mem a hm))
    simp [splitOnChar, hne, hid]

theorem split_app {c : Char} {s t : List Char} (h : c ∉ s) :
    splitOnChar c (s ++ c :: t) = s :: splitOnChar c t := by
  induction s with
  | nil => simp [splitOnChar]
  | cons a rest ih =>
    have hne : ¬ a = c := fun he => h (he ▸ List.mem_cons_self a rest)
    have hid := ih (fun hm => h (List.mem_cons_of_mem a hm))
    simp only [List.cons_append, splitOnChar, hne, if_false, List.append_eq, hid]

theorem lineMap_id {f : List Char → List Char} {t : List Char}
    (h : '\n' ∉ t) (hf : f t = t) : lineMap f t = t := by
  rw [lineMap, split_no h]
  simp [joinN, hf]

theorem split1_none {s : List Char} (h : '/' ∉ s) : split1 s = none := by
  induction s with
  | nil => rfl
  | cons a rest ih =>
    have hne : ¬ a = '/' := fun he => h (he ▸ List.mem_cons_self a rest)
    have hid := ih (fun hm => h (List.mem_cons_of_mem a hm))
    simp [split1, hne, hid]

theorem split1_app {pre rest : List Char} (h : '/' ∉ pre) :
    split1 (pre ++ '/' :: rest) = some (pre, rest) := by
  induction pre with
  | nil => simp [split1]
  | cons a p ih =>
    have hne : ¬ a = '/' := fun he => h (he ▸ List.mem_cons_self a p)
    have hid := ih (fun hm => h (List.mem_cons_of_mem a hm))
    simp [split1, hne, hid]

/-! ## Behaviour of the header-rewriting pass on well-formed headers -/

theorem headerStr_assoc (p : List Char) :
    headerStr p = headerPfx ++ (p ++ (bSep ++ p)) := by
  simp [headerStr, List.append_assoc]

theorem headerRepl_eq (proj X : List Char) :
    headerRepl proj X = headerStr (proj ++ '/' :: X) := by
  simp [headerRepl, headerStr, List.append_assoc]

theorem capWalk_cons (capRev : List Char) (c : Char) (rest : List Char) :
    capWalk capRev (c :: rest) =
      if (bSep ++ capRev.reverse).isPrefixOf (c :: rest) then some capRev.reverse
      else if c = '\n' then none
      else capWalk (c :: capRev) rest := rfl

theorem capWalk_steps {P Q : List Char} (hnl : '\n' ∉ P)
    (hsf : findSub bSep P = none) (hpre : P.isPrefixOf Q = true) :
    ∀ j k, k + j = P.length →
      capWalk ((P.take k).reverse) ((P ++ (bSep ++ Q)).drop k) = some P := by
  intro j
  induction j with
  | zero =>
    intro k hk
    have hkP : k = P.length := by omega
    subst hkP
    rw [List.drop_left, List.take_length]
    have hcond : (bSep ++ P.reverse.reverse).isPrefixOf (bSep ++ Q) = true := by
      rw [List.reverse_reverse, isPre_app_congr]
      exact hpre
    cases hQ : bSep ++ Q with
    | nil => simp [bSep] at hQ
    | cons c rest =>
      rw [hQ] at hcond
      rw [capWalk_cons, if_pos hcond, List.reverse_reverse]
  | succ j ih =>
    intro k hk
    have hklt : k < P.length := by omega
    have hdrop : (P ++ (bSep ++ Q)).drop k = P.drop k ++ (bSep ++ Q) := by
      rw [List.drop_append_eq_append_drop, Nat.sub_eq_zero_of_le (le_of_lt hklt),
        List.drop_zero]
    have hcons : P.drop k = P[k] :: P.drop (k + 1) := List.drop_eq_getElem_cons hklt
    have hcond : (bSep ++ (P.take k).reverse.reverse).isPrefixOf
        (P.drop k ++ (bSep ++ Q)) = false := by
      rw [List.reverse_reverse]
      by_contra hcon
      rw [Bool.not_eq_false] at hcon
      have := isPre_weaken hcon
      rw [← hdrop] at this
      rw [noEarlySep hsf k hklt] at this
      cases this
    have hnlk : ¬ P[k] = '\n' := by
      intro he
      exact hnl (he ▸ List.getElem_mem hklt)
    have hstep : (P.take (k + 1)).reverse = P[k] :: (P.take k).reverse := by
      rw [List.take_succ, List.getElem?_eq_getElem hklt]
      simp
    rw [hdrop, hcons]
    rw [hcons] at hcond
    simp only [List.cons_append] at hcond ⊢
    rw [capWalk_cons, if_neg (by rw [hcond]; exact Bool.false_ne_true),
      if_neg hnlk]
    have harg : P.drop (k + 1) ++ (bSep ++ Q) = (P ++ (bSep ++ Q)).drop (k + 1) := by
      rw [List.drop_append_eq_append_drop, Nat.sub_eq_zero_of_le (by omega),
        List.drop_zero]
    rw [show P[k] :: (P.take k).reverse = (P.take (k + 1)).reverse from hstep.symm]
    rw [harg]
    exact ih (k + 1) (by omega)

theorem capWalk_complete {P Q : List Char} (hnl : '\n' ∉ P)
    (hsf : findSub bSep P = none) (hpre : P.isPrefixOf Q = true) :
    capWalk [] (P ++ (bSep ++ Q)) = some P := by
  have h := capWalk_steps hnl hsf hpre P.length 0 (by omega)
  simpa using h

theorem headerMatch_header {P : List Char} (hnl : '\n' ∉ P)
    (hsf : findSub bSep P = none) :
    headerMatch (headerStr P) = some P := by
  have hpre : headerPfx.isPrefixOf (headerStr P) = true := by
    rw [headerStr_assoc]
    exact isPre_append _ _
  have hdrop : (headerStr P).drop 13 = P ++ (bSep ++ P) := by
    rw [headerStr_assoc, show (13 : Nat) = headerPfx.length from rfl,
      List.drop_left]
  rw [headerMatch, if_pos hpre, hdrop]
  exact capWalk_complete hnl hsf (isPre_refl P)

theorem headerMatch_nil : headerMatch [] = none := by decide

theorem subHeadersF_nil (proj : List Char) :
    ∀ m, subHeadersF proj m [] = []
  | 0 => rfl
  | m + 1 => by simp [subHeadersF, headerMatch_nil]

theorem headerStr_length (P : List Char) :
    (headerStr P).length = 16 + 2 * P.length := by
  simp only [headerStr, List.length_append,
    show headerPfx.length = 13 from rfl, show bSep.length = 3 from rfl]
  omega

theorem subHeadersF_succ (proj : List Char) (fuel : Nat) (s : List Char) :
    subHeadersF proj (fuel + 1) s =
      match headerMatch s with
      | some X =>
        headerRepl proj X ++ subHeadersF proj fuel (s.drop (16 + 2 * X.length))
      | none =>
        match s with
        | [] => []
        | c :: rest => c :: subHeadersF proj fuel rest := rfl

theorem subHeaders_header {proj P : List Char} (hnl : '\n' ∉ P)
    (hsf : findSub bSep P = none) :
    subHeaders proj (headerStr P) = headerRepl proj P := by
  rw [subHeaders, headerStr_length,
    show 16 + 2 * P.length = (15 + 2 * P.length) + 1 by omega,
    subHeadersF_succ, headerMatch_header hnl hsf]
  show headerRepl proj P ++
      subHeadersF proj (15 + 2 * P.length)
        ((headerStr P).drop (16 + 2 * P.length)) = headerRepl proj P
  rw [List.drop_eq_nil_of_le (by rw [headerStr_length])]
  rw [subHeadersF_nil, List.append_nil]

theorem mm_not_header (proj q : List Char) :
    mmRewrite proj (headerStr q) = headerStr q := by
  have hfalse : mmMark.isPrefixOf (headerStr q) = false := by
    rw [headerStr_assoc, isPre_long (by decide)]
    decide
  rw [mmRewrite, if_neg]
  intro hcon
  rw [hfalse] at hcon
  exact Bool.false_ne_true hcon.1

theorem pp_not_header (proj q : List Char) :
    ppRewrite proj (headerStr q) = headerStr q := by
  have hfalse : ppMark.isPrefixOf (headerStr q) = false := by
    rw [headerStr_assoc, isPre_long (by decide)]
    decide
  rw [ppRewrite, if_neg]
  intro hcon
  rw [hfalse] at hcon
  exact Bool.false_ne_true hcon.1

theorem nl_not_headerStr {p : List Char} (h : '\n' ∉ p) :
    '\n' ∉ headerStr p := by
  intro hm
  rw [headerStr] at hm
  simp only [List.mem_append] at hm
  rcases hm with ((h1 | h2) | h3) | h4
  · exact absurd h1 (by decide)
  · exact h h2
  · exact absurd h3 (by decide)
  · exact h h4

theorem nl_app {proj P : List Char} (h1 : '\n' ∉ proj) (h2 : '\n' ∉ P) :
    '\n' ∉ proj ++ '/' :: P := by
  intro hm
  simp only [List.mem_append, List.mem_cons] at hm
  rcases hm with ha | hb | hc
  · exact h1 ha
  · exact absurd hb (by decide)
  · exact h2 hc

theorem sepFree_app {proj P : List Char} (h1 : findSub bSep proj = none)
    (h2 : findSub bSep P = none)
    (hE : proj.drop (proj.length - 2) ≠ [' ', 'b']) :
    findSub bSep (proj ++ '/' :: P) = none := by
  rw [findSub_eq_none]
  intro i
  by_cases hi : i ≤ proj.length
  · have hdrop : (proj ++ '/' :: P).drop i = proj.drop i ++ '/' :: P := by
      rw [List.drop_append_eq_append_drop, Nat.sub_eq_zero_of_le hi,
        List.drop_zero]
    rw [hdrop]
    rcases hR : proj.drop i with _ | ⟨a, R1⟩
    · by_contra hcon
      rw [Bool.not_eq_false] at hcon
      simp only [List.nil_append, bSep, List.isPrefixOf, Bool.and_eq_true,
        beq_iff_eq] at hcon
      exact absurd hcon.1 (by decide)
    · rcases R1 with _ | ⟨b, R2⟩
      · by_contra hcon
        rw [Bool.not_eq_false] at hcon
        simp only [List.cons_append, List.nil_append, bSep, List.isPrefixOf,
          Bool.and_eq_true, beq_iff_eq] at hcon
        exact absurd hcon.2.1 (by decide)
      · rcases R2 with _ | ⟨c, R3⟩
        · by_contra hcon
          rw [Bool.not_eq_false] at hcon
          simp only [List.cons_append, List.nil_append, bSep, List.isPrefixOf,
            Bool.and_eq_true, beq_iff_eq] at hcon
          have hlen2 : (proj.drop i).length = 2 := by rw [hR]; rfl
          have hi2 : i = proj.length - 2 := by
            rw [List.length_drop] at hlen2; omega
          apply hE
          rw [← hi2, hR, ← hcon.1, ← hcon.2.1]
        · rw [isPre_long (by simp [bSep])]
          rw [← hR]
          exact findSub_eq_none.mp h1 i
  · have hdrop : ∀ j, i - proj.length = j + 1 →
        (proj ++ '/' :: P).drop i = P.drop j := by
      intro j hj
      rw [List.drop_append_eq_append_drop,
        List.drop_eq_nil_of_le (by omega), List.nil_append, hj,
        List.drop_succ_cons]
    rw [hdrop (i - proj.length - 1) (by omega)]
    exact findSub_eq_none.mp h2 _

/-- A single application of the rewrite on a well-formed header line
`diff --git a/R b/R` prepends the project name to both sides. -/
theorem add_pfx_header {proj R : List Char} (hjnl : '\n' ∉ proj)
    (hnl : '\n' ∉ R) (hsf : findSub bSep R = none) :
    add_project_pfx proj (headerStr R) = headerStr (proj ++ '/' :: R) := by
  have hnl' : '\n' ∉ proj ++ '/' :: R := nl_app hjnl hnl
  have hnlS : '\n' ∉ headerStr (proj ++ '/' :: R) := nl_not_headerStr hnl'
  rw [add_project_pfx, subHeaders_header hnl hsf, headerRepl_eq,
    lineMap_id hnlS (mm_not_header proj _), lineMap_id hnlS (pp_not_header proj _)]

/-- C5 counterexample: applying `add_project_prefix` twice with project
name `p` to the single well-formed header `diff --git a/x b/x` does
double-prefix the header (`a/p/p/x b/p/p/x`), so the second application
does not leave the header as produced by the first. -/
theorem c5_counterexample :
    add_project_pfx "p".data (add_project_pfx "p".data (headerStr "x".data))
        = headerStr "p/p/x".data
    ∧ add_project_pfx "p".data (add_project_pfx "p".data (headerStr "x".data))
        ≠ add_project_pfx "p".data (headerStr "x".data) := by decide

/-- C5 (amended): for every project name and path free of newlines and of
the substring `" b/"`, with the project name not ending in `" b"`,
applying the rewrite twice to a well-formed header `diff --git a/P b/P`
double-prefixes it: the first application yields
`diff --git a/{proj}/P b/{proj}/P` and the second application rewrites
that header again to `diff --git a/{proj}/{proj}/P b/{proj}/{proj}/P`
(the rewrite is not idempotent on header lines). -/
theorem c5_amended_thm (proj P : List Char)
    (hPnl : '\n' ∉ P) (hPsf : findSub bSep P = none)
    (hjnl : '\n' ∉ proj) (hjsf : findSub bSep proj = none)
    (hE : proj.drop (proj.length - 2) ≠ [' ', 'b']) :
    add_project_pfx proj (headerStr P) = headerStr (proj ++ '/' :: P)
    ∧ add_project_pfx proj (add_project_pfx proj (headerStr P))
        = headerStr (proj ++ '/' :: (proj ++ '/' :: P)) := by
  constructor
  · exact add_pfx_header hjnl hPnl hPsf
  · rw [add_pfx_header hjnl hPnl hPsf]
    exact add_pfx_header hjnl (nl_app hjnl hPnl) (sepFree_app hjsf hPsf hE)

/-- C5 witness: the amended statement at `proj = "p"`, `P = "x"`. -/
theorem c5_witness :
    add_project_pfx "p".data (headerStr "x".data) = headerStr ("p".data ++ '/' :: "x".data)
    ∧ add_project_pfx "p".data (add_project_pfx "p".data (headerStr "x".data))
        = headerStr ("p".data ++ '/' :: ("p".data ++ '/' :: "x".data)) :=
  c5_amended_thm "p".data "x".data (by decide) (by decide) (by decide)
    (by decide) (by decide)

/-! ## File-path extraction on well-formed headers -/

theorem matchHeaderLine_header {p : List Char}
    (hsf : findSub bSep p = none) :
    matchHeaderLine (headerStr p) = some p := by
  have hpre : headerPfx.isPrefixOf (headerStr p) = true := by
    rw [headerStr_assoc]
    exact isPre_append _ _
  have hdrop : (headerStr p).drop 13 = p ++ (bSep ++ p) := by
    rw [headerStr_assoc, show (13 : Nat) = headerPfx.length from rfl,
      List.drop_left]
  have hfind : findSub bSep (p ++ (bSep ++ p)) = some p.length := by
    apply findSub_eq_some
    · rw [List.drop_left]
      exact isPre_append _ _
    · exact noEarlySep hsf
  rw [matchHeaderLine, if_pos hpre, hdrop, hfind]
  show some ((p ++ (bSep ++ p)).take p.length) = some p
  rw [List.take_left]

theorem matchHeaderLine_none {l : List Char}
    (h : headerPfx.isPrefixOf l = false) : matchHeaderLine l = none := by
  rw [matchHeaderLine, if_neg]
  intro hcon
  rw [h] at hcon
  exact Bool.false_ne_true hcon

theorem filterMap_of_filter {α β : Type} {g : α → Option β} {q : α → Bool}
    {f : β → α} (h2 : ∀ a, q a = false → g a = none) :
    ∀ (ls : List α) (xs : List β), ls.filter q = xs.map f →
      (∀ b ∈ xs, g (f b) = some b) → ls.filterMap g = xs := by
  intro ls
  induction ls with
  | nil =>
    intro xs h h3
    simp only [List.filter_nil] at h
    rw [eq_comm, List.map_eq_nil_iff] at h
    subst h
    rfl
  | cons a ls ih =>
    intro xs h h3
    cases hq : q a with
    | false =>
      rw [List.filter_cons, if_neg (by rw [hq]; exact Bool.false_ne_true)] at h
      rw [List.filterMap_cons, h2 a hq]
      exact ih xs h h3
    | true =>
      rw [List.filter_cons, if_pos hq] at h
      cases xs with
      | nil => simp at h
      | cons x xs =>
        rw [List.map_cons] at h
        have h1 : a = f x := (List.cons.injEq _ _ _ _ ▸ h).1
        have hrest : ls.filter q = xs.map f := (List.cons.injEq _ _ _ _ ▸ h).2
        rw [List.filterMap_cons, h1, h3 x (List.mem_cons_self x xs)]
        rw [ih xs hrest (fun b hb => h3 b (List.mem_cons_of_mem x hb))]

/-- C1 counterexample: the single well-formed header line
`diff --git a/P b/P` for the path `P = "x b/y"` (which contains `" b/"`)
is extracted as `["x"]`, not `[P]`: the lazy capture stops at the first
`" b/"`. -/
theorem c1_counterexample :
    extract_changed_files (headerStr "x b/y".data) = ["x".data]
    ∧ extract_changed_files (headerStr "x b/y".data) ≠ ["x b/y".data] := by
  decide

/-- C1 (amended): for every diff text in which every line beginning with
`diff --git a/` is a well-formed header `diff --git a/P b/P` whose path
`P` contains no occurrence of `" b/"`, file-path extraction returns
exactly those paths, in document order; and for every diff text in which
no line matches the pattern at all, it returns the empty list. -/
theorem c1_amended_thm (t : List Char) (ps : List (List Char)) :
    ((∀ p ∈ ps, findSub bSep p = none) →
      (splitOnChar '\n' t).filter (fun l => headerPfx.isPrefixOf l)
        = ps.map headerStr →
      extract_changed_files t = ps)
    ∧ ((∀ l ∈ splitOnChar '\n' t, matchHeaderLine l = none) →
      extract_changed_files t = []) := by
  constructor
  · intro hgood hfilter
    rw [extract_changed_files]
    refine filterMap_of_filter ?_ _ _ hfilter ?_
    · intro a ha
      exact matchHeaderLine_none ha
    · intro b hb
      exact matchHeaderLine_header (hgood b hb)
  · intro h
    rw [extract_changed_files]
    exact List.filterMap_eq_nil_iff.mpr h

/-- C1 witness: a two-header diff (with an unrelated middle line) yields
exactly the two paths, in order; a text without headers yields `[]`. -/
theorem c1_witness :
    extract_changed_files
        (headerStr "X.txt".data ++ '\n' :: "+ctx".data
          ++ '\n' :: headerStr "Y.txt".data)
      = ["X.txt".data, "Y.txt".data]
    ∧ extract_changed_files "no header here".data = [] :=
  ⟨(c1_amended_thm _ ["X.txt".data, "Y.txt".data]).1 (by decide) (by decide),
   (c1_amended_thm "no header here".data []).2 (by decide)⟩

/-! ## Original-file resolution -/

theorem searchMulti_found {fs : FS} {pre rest r c : List Char} :
    ∀ {roots : List (List Char)}, r ∈ roots → pathName r = pre →
      (∀ x ∈ roots, pathName x = pre → x = r) →
      fsGet fs (pathJoin r rest) = some c →
      searchMulti fs pre rest roots = some c := by
  intro roots
  induction roots with
  | nil => intro hmem; cases hmem
  | cons a roots ih =>
    intro hmem hname huniq hget
    by_cases ha : pathName a = pre
    · have haa : a = r := huniq a (List.mem_cons_self a roots) ha
      subst haa
      simp [searchMulti, ha, hget]
    · have hmem' : r ∈ roots := by
        rcases List.mem_cons.mp hmem with he | hm
        · exact absurd (he ▸ hname) ha
        · exact hm
      simp only [searchMulti, ha, if_false]
      exact ih hmem' hname (fun x hx => huniq x (List.mem_cons_of_mem a hx)) hget

theorem searchMulti_none {fs : FS} {pre rest : List Char} :
    ∀ {roots : List (List Char)},
      (∀ x ∈ roots, pathName x = pre → fsGet fs (pathJoin x rest) = none) →
      searchMulti fs pre rest roots = none := by
  intro roots
  induction roots with
  | nil => intro _; rfl
  | cons a roots ih =>
    intro h
    by_cases ha : pathName a = pre
    · simp only [searchMulti, ha, if_true, h a (List.mem_cons_self a roots) ha]
      exact ih (fun x hx hp => h x (List.mem_cons_of_mem a hx) hp)
    · simp only [searchMulti, ha, if_false]
      exact ih (fun x hx hp => h x (List.mem_cons_of_mem a hx) hp)

/-- C2: with more than one configured root and a prefixed reference
`pre ++ "/" ++ rest`, resolution uses exactly the root whose final path
segment equals `pre`: it returns that root's file content when the file
exists there, and the not-found marker otherwise — regardless of what
exists under any other root (the filesystem is universally quantified, so
no cross-root fallback can occur). -/
theorem c2_thm (fs : FS) (roots pre rest r : List Char)
    (hmulti : 1 < (splitOnChar ':' roots).length)
    (hpre : '/' ∉ pre)
    (hmem : r ∈ splitOnChar ':' roots)
    (hname : pathName r = pre)
    (huniq : ∀ x ∈ splitOnChar ':' roots, pathName x = pre → x = r) :
    (∀ c, fsGet fs (pathJoin r rest) = some c →
      load_original fs roots (pre ++ '/' :: rest) = .ok c)
    ∧ (fsGet fs (pathJoin r rest) = none →
      load_original fs roots (pre ++ '/' :: rest)
        = .ok (notFoundMarker (pre ++ '/' :: rest))) := by
  have hsplit : split1 (pre ++ '/' :: rest) = some (pre, rest) :=
    split1_app hpre
  constructor
  · intro c hget
    rw [load_original]
    rw [hsplit]
    simp only [if_pos hmulti]
    rw [searchMulti_found hmem hname huniq hget]
  · intro hget
    have hnone : searchMulti fs pre rest (splitOnChar ':' roots) = none :=
      searchMulti_none (fun x hx hp => by rw [huniq x hx hp]; exact hget)
    rw [load_original]
    rw [hsplit]
    simp only [if_pos hmulti]
    rw [hnone]

/-- C2 witness: roots `/w/backend:/w/other`, reference
`backend/src/A.java`; the file exists under `/w/backend` (and a decoy
exists under `/w/other`), so its content is returned; with the file
absent under `/w/backend` but still present under `/w/other`, the
not-found marker is returned. -/
theorem c2_witness :
    load_original
        [("/w/backend/src/A.java".data, "OK".data),
         ("/w/other/src/A.java".data, "DECOY".data)]
        "/w/backend:/w/other".data ("backend".data ++ '/' :: "src/A.java".data)
      = .ok "OK".data
    ∧ load_original [("/w/other/src/A.java".data, "DECOY".data)]
        "/w/backend:/w/other".data ("backend".data ++ '/' :: "src/A.java".data)
      = .ok (notFoundMarker ("backend".data ++ '/' :: "src/A.java".data)) :=
  ⟨(c2_thm _ "/w/backend:/w/other".data "backend".data "src/A.java".data
      "/w/backend".data (by decide) (by decide) (by decide) (by decide)
      (by decide)).1 "OK".data (by decide),
   (c2_thm _ "/w/backend:/w/other".data "backend".data "src/A.java".data
      "/w/backend".data (by decide) (by decide) (by decide) (by decide)
      (by decide)).2 (by decide)⟩

/-- C6: a changed-file reference with no `'/'` at all makes
`load_original` raise an `IndexError` (the single-project branch indexes
`parts[1]` of a one-element split), for every filesystem and every
configured root string. -/
theorem c6_thm (fs : FS) (roots fp : List Char) (h : '/' ∉ fp) :
    load_original fs roots fp = .error () := by
  rw [load_original, split1_none h]

/-- C6 witness: reference `Api.java` with two roots configured. -/
theorem c6_witness :
    load_original [] "/p1:/p2".data "Api.java".data = .error () :=
  c6_thm [] "/p1:/p2".data "Api.java".data (by decide)

/-! ## Truncation policies -/

/-- C3: the review stage's original-file truncation replaces a
50,001-character content by its first 5,000 characters, the marker, and
its last 45,000 characters (`drop 5001`), and leaves any content of at
most 50,000 characters unchanged (strict `>` threshold). -/
theorem c3_thm (s : List Char) :
    (s.length = 50001 →
      truncate_original s = s.take 5000 ++ truncMark ++ s.drop 5001)
    ∧ (s.length ≤ 50000 → truncate_original s = s) := by
  constructor
  · intro h
    rw [truncate_original, if_pos (by omega), h]
  · intro h
    rw [truncate_original, if_neg (by omega)]

/-- C3 witness: the statement at contents of exactly 50,001 and exactly
50,000 characters. -/
theorem c3_witness :
    truncate_original (List.replicate 50001 'a')
      = (List.replicate 50001 'a').take 5000 ++ truncMark
        ++ (List.replicate 50001 'a').drop 5001
    ∧ truncate_original (List.replicate 50000 'a')
      = List.replicate 50000 'a' :=
  ⟨(c3_thm _).1 (by rw [List.length_replicate]),
   (c3_thm _).2 (by rw [List.length_replicate])⟩

/-- C4: diff text longer than 60,000 characters is cut to exactly its
first 60,000 characters (prefix kept) in the context-extraction stage;
aggregated-reviews text longer than 250,000 characters is cut to exactly
its last 250,000 characters (suffix kept) in the summarization stage;
texts at or below each budget pass through unchanged. -/
theorem c4_thm (d r : List Char) :
    (60000 < d.length → truncate_diff d = d.take 60000)
    ∧ (d.length ≤ 60000 → truncate_diff d = d)
    ∧ (250000 < r.length →
        truncate_reviews r = r.drop (r.length - 250000))
    ∧ (r.length ≤ 250000 → truncate_reviews r = r) := by
  refine ⟨fun h => ?_, fun h => ?_, fun h => ?_, fun h => ?_⟩
  · rw [truncate_diff, if_pos h]
  · rw [truncate_diff, if_neg (by omega)]
  · rw [truncate_reviews, if_pos h]
  · rw [truncate_reviews, if_neg (by omega)]

/-- C4 witness: the statement at texts of 60,001 / 60,000 and 250,001 /
250,000 characters. -/
theorem c4_witness :
    truncate_diff (List.replicate 60001 'a')
      = (List.replicate 60001 'a').take 60000
    ∧ truncate_diff (List.replicate 60000 'a') = List.replicate 60000 'a'
    ∧ truncate_reviews (List.replicate 250001 'b')
      = (List.replicate 250001 'b').drop ((List.replicate 250001 'b').length - 250000)
    ∧ truncate_reviews (List.replicate 250000 'b')
      = List.replicate 250000 'b' :=
  ⟨(c4_thm (List.replicate 60001 'a') (List.replicate 250001 'b')).1
      (by rw [List.length_replicate]; omega),
   (c4_thm (List.replicate 60000 'a') (List.replicate 250001 'b')).2.1
      (by rw [List.length_replicate]),
   (c4_thm (List.replicate 60001 'a') (List.replicate 250001 'b')).2.2.1
      (by rw [List.length_replicate]; omega),
   (c4_thm (List.replicate 60001 'a') (List.replicate 250000 'b')).2.2.2
      (by rw [List.length_replicate])⟩

/-! ## Diff merging -/

theorem merge_parts_cons (fs : FS) (fn : List Char × List Char)
    (rest : List (List Char × List Char)) :
    merge_parts fs (fn :: rest) =
      match fsGet fs fn.1 with
      | none => .error ()
      | some t =>
        match merge_parts fs rest with
        | .error e => .error e
        | .ok ps => .ok (sepLine fn.2 :: add_project_pfx fn.2 t :: ps) := rfl

theorem merge_parts_ok {fs : FS} :
    ∀ {files contents : List (List Char)},
      List.Forall₂ (fun f c => fsGet fs f = some c) files contents →
      ∀ {names : List (List Char)}, files.length = names.length →
      merge_parts fs (files.zip names)
        = .ok ((names.zip contents).flatMap
            (fun nc => [sepLine nc.1, add_project_pfx nc.1 nc.2])) := by
  intro files contents hf
  induction hf with
  | nil =>
    intro names hlen
    cases names with
    | nil => rfl
    | cons n ns => simp at hlen
  | @cons f c l₁ l₂ hfc hrest ih =>
    intro names hlen
    cases names with
    | nil => simp at hlen
    | cons n ns =>
      rw [List.zip_cons_cons, merge_parts_cons,
        show fsGet fs (f, n).1 = some c from hfc,
        ih (show l₁.length = ns.length by simpa using hlen)]
      rw [List.zip_cons_cons, List.flatMap_cons]
      rfl

/-- C7: with equally many diff files and project names, all present on
disk, the merge stage exits 0 having written one output consisting of,
for each project in input order, the `### PROJECT: <name> ###` separator
followed by that project's prefixed diff, all joined by newlines; with
unequal list lengths it exits 1 without writing any output. -/
theorem c7_thm (fs : FS) (files names contents : List (List Char)) :
    (files.length = names.length →
      List.Forall₂ (fun f c => fsGet fs f = some c) files contents →
      merge_main fs files names
        = .exitCode 0 (some (joinN ((names.zip contents).flatMap
            (fun nc => [sepLine nc.1, add_project_pfx nc.1 nc.2])))))
    ∧ (files.length ≠ names.length →
      merge_main fs files names = .exitCode 1 none) := by
  constructor
  · intro hlen hf
    rw [merge_main, if_neg (by omega), merge_diffs, merge_parts_ok hf hlen]
  · intro hne
    rw [merge_main, if_pos hne]

/-- C7 witness: two diffs and two names, both present, exit 0 with the
expected joined output; two diffs with one name, exit 1 and no output. -/
theorem c7_witness :
    merge_main
        [("d1".data, "diff --git a/x b/x".data), ("d2".data, "hello".data)]
        ["d1".data, "d2".data] ["p1".data, "p2".data]
      = .exitCode 0 (some (joinN
          ((["p1".data, "p2".data].zip
              ["diff --git a/x b/x".data, "hello".data]).flatMap
            (fun nc => [sepLine nc.1, add_project_pfx nc.1 nc.2]))))
    ∧ merge_main [] ["d1".data, "d2".data] ["p1".data]
      = .exitCode 1 none :=
  ⟨(c7_thm _ ["d1".data, "d2".data] ["p1".data, "p2".data]
      ["diff --git a/x b/x".data, "hello".data]).1 (by decide)
      (List.Forall₂.cons (by decide)
        (List.Forall₂.cons (by decide) List.Forall₂.nil)),
   (c7_thm [] ["d1".data, "d2".data] ["p1".data] []).2 (by decide)⟩

/-! ## Endpoint-failure behaviour and output atomicity -/

theorem merge_parts_error {fs : FS} :
    ∀ {l : List (List Char × List Char)},
      (∃ fn ∈ l, fsGet fs fn.1 = none) → merge_parts fs l = .error () := by
  intro l
  induction l with
  | nil => rintro ⟨fn, hmem, _⟩; cases hmem
  | cons a l ih =>
    rintro ⟨fn, hmem, hnone⟩
    rcases hg : fsGet fs a.1 with _ | t
    · rw [merge_parts_cons, hg]
    · rcases List.mem_cons.mp hmem with he | hm
      · rw [he] at hnone
        rw [hnone] at hg
        cases hg
      · rw [merge_parts_cons, hg, ih ⟨fn, hm, hnone⟩]

/-- C9 counterexample: the merge stage, given one diff file that does not
exist (with matching list lengths), raises `FileNotFoundError` — it is
re-raised by `main` and aborts the process — rather than returning
early. -/
theorem c9_counterexample :
    merge_main [] ["d.diff".data] ["p".data] = MergeOutcome.raised := by
  decide

/-- C9 (amended): the context-extraction stage logs a missing diff file
and returns early without raising; the merge stage instead raises
(`FileNotFoundError`, logged and re-raised), aborting the run, whenever
any of its diff files is missing. -/
theorem c9_amended_thm :
    (∀ (fs : FS) (p ts : List Char)
        (llm : ExtractPrompt → Option (List Char)),
        fsGet fs p = none → extract_stage fs p ts llm = .returnedEarly)
    ∧ (∀ (fs : FS) (files names : List (List Char)),
        files.length = names.length →
        (∃ fn ∈ files.zip names, fsGet fs fn.1 = none) →
        merge_main fs files names = .raised) := by
  constructor
  · intro fs p ts llm h
    simp only [extract_stage, h]
  · intro fs files names hlen hex
    rw [merge_main, if_neg (by omega), merge_diffs, merge_parts_error hex]

/-- C9 witness: the amended statement at a missing diff for both
stages. -/
theorem c9_witness :
    extract_stage [] "d.diff".data [] (fun _ => none) = .returnedEarly
    ∧ merge_main [("a".data, "x".data)] ["a".data, "b".data]
        ["p".data, "q".data] = .raised :=
  ⟨c9_amended_thm.1 [] "d.diff".data [] (fun _ => none) (by decide),
   c9_amended_thm.2 [("a".data, "x".data)] ["a".data, "b".data]
     ["p".data, "q".data] (by decide)
     ⟨("b".data, "q".data), by decide, by decide⟩⟩

/-! ## File count versus truncated prompt text -/

theorem extract_prompt_diff (d ts : List Char) :
    (extract_prompt d ts).diff = truncate_diff d := rfl

theorem extract_prompt_count (d ts : List Char) :
    (extract_prompt d ts).fileCount = (extract_changed_files d).length := rfl

theorem headerPfx_not_pre_x (n : Nat) :
    headerPfx.isPrefixOf (List.replicate n 'x') = false := by
  cases n with
  | zero => decide
  | succ m =>
    rw [List.replicate_succ]
    rw [show headerPfx = 'd' :: "iff --git a/".data from rfl]
    simp only [List.isPrefixOf]
    rw [show (('d' : Char) == 'x') = false from rfl, Bool.false_and]

theorem nl_not_mem_replicate (n : Nat) : '\n' ∉ List.replicate n 'x' := by
  intro h
  rw [List.mem_replicate] at h
  exact absurd h.2 (by decide)

theorem extract_replicate (n : Nat) :
    extract_changed_files (List.replicate n 'x') = [] := by
  rw [extract_changed_files, split_no (nl_not_mem_replicate n)]
  rw [List.filterMap_cons, matchHeaderLine_none (headerPfx_not_pre_x n)]
  rfl

/-- C10: the file count substituted into the context-extraction prompt is
always the number of `diff --git` headers of the full diff text as read
from disk; and there is a diff longer than 60,000 characters whose prompt
reports strictly more files than the truncated diff text placed in the
prompt still contains. -/
theorem c10_thm :
    (∀ d ts, (extract_prompt d ts).fileCount
        = (extract_changed_files d).length)
    ∧ (∃ d, 60000 < d.length ∧
        (extract_changed_files ((extract_prompt d []).diff)).length
          < (extract_prompt d []).fileCount) := by
  constructor
  · intro d ts
    rfl
  · refine ⟨List.replicate 60001 'x' ++ '\n' :: headerStr "A.java".data,
      ?_, ?_⟩
    · rw [List.length_append, List.length_replicate]
      omega
    · have hlen : 60000 <
          (List.replicate 60001 'x' ++ '\n' :: headerStr "A.java".data).length := by
        rw [List.length_append, List.length_replicate]
        omega
      have hdiff : (extract_prompt
            (List.replicate 60001 'x' ++ '\n' :: headerStr "A.java".data)
            []).diff = List.replicate 60000 'x' := by
        rw [extract_prompt_diff]
        rw [truncate_diff, if_pos hlen, List.take_append_eq_append_take,
          List.take_replicate, List.length_replicate,
          show 60000 - 60001 = 0 from rfl, List.take_zero, List.append_nil,
          show (60000 : Nat) ⊓ 60001 = 60000 from rfl]
      have hfull : extract_changed_files
            (List.replicate 60001 'x' ++ '\n' :: headerStr "A.java".data)
          = ["A.java".data] := by
        rw [extract_changed_files, split_app (nl_not_mem_replicate 60001),
          split_no (by decide : '\n' ∉ headerStr "A.java".data)]
        rw [List.filterMap_cons,
          matchHeaderLine_none (headerPfx_not_pre_x 60001),
          List.filterMap_cons, matchHeaderLine_header (by decide)]
        rfl
      have hcount : (extract_prompt
            (List.replicate 60001 'x' ++ '\n' :: headerStr "A.java".data)
            []).fileCount = 1 := by
        rw [extract_prompt_count, hfull]
        rfl
      rw [hdiff, hcount, extract_replicate]
      decide
